import Mathlib

/-!
Verification of the countdown timer of src/tts_countdown.py.

The timing core is `CountdownTimer._run_countdown` together with `start`,
`stop`, `is_running` and `current_count`.  Wall-clock instants are modelled
as rationals (datetime has microsecond granularity; the arithmetic on
`total_seconds()` values is modelled exactly).  The timing loop samples the
clock twice per iteration: once at line 111 (`now = datetime.now()`) and
once at line 130 (`datetime.now()` inside the recompute).  A run is
therefore a function of a *schedule*: for each iteration, the scheduling
delay before the first sample and the sleep overshoot before the second
sample.  `time.sleep` never returns early, so both delays are nonnegative
and otherwise arbitrary (a stalled process corresponds to a large
overshoot).
-/

namespace TTSCountdown

/-- Python `int()` applied to a (real-valued) number of seconds: truncation
toward zero, i.e. floor for nonnegative arguments and ceiling for negative
ones.  This is the conversion used at line 130 of the source. -/
def pyInt (q : ℚ) : ℤ := if 0 ≤ q then ⌊q⌋ else ⌈q⌉

/-- Observable actions of one run: a spoken count (`_speak_count` with a
positive argument actually utters the number; with a nonpositive argument
the spawned closure speaks nothing), the completion utterance
(`_speak_final`), and an invocation of the observer callback. -/
inductive Event where
  | announce (n : ℤ)
  | announceFinal
  | observer (n : ℤ)
deriving DecidableEq

/-- Scheduling data for one loop iteration: `d1` is the delay from the
previous iteration's last clock sample to this iteration's line-111 sample,
`d2` is the sleep overshoot (line-130 sample happens `sleep + d2` after the
line-111 sample).  Valid schedules have both components nonnegative. -/
structure IterSched where
  d1 : ℚ
  d2 : ℚ
deriving DecidableEq

/-- The mutable state of the countdown thread: `_running`,
`_current_count`, `_end_time`, plus the current wall-clock instant. -/
structure LoopState where
  running : Bool
  count : ℤ
  endTime : ℚ
  clock : ℚ
deriving DecidableEq

/-- Result of one run of `_run_countdown`: the state after the `finally`
block, the delivered events in order, the successive values assigned to
`_current_count` during the loop, the durations actually slept, and whether
an exception escaped the `try` body (reaching `finally`). -/
structure RunResult where
  final : LoopState
  events : List Event
  counts : List ℤ
  sleeps : List ℚ
  exc : Bool
deriving DecidableEq

/-- Lines 137-141 of the source: after the loop exits, if
`_current_count == 0 and _running`, dispatch the completion utterance and
invoke `callback(0)`; the surrounding `finally` (lines 142-143) then clears
`_running` on every path.  `raiseOn` tells which emission steps raise: a
raising dispatch delivers nothing, a raising callback is invoked (the event
is delivered) and then aborts the body. -/
def completion (raiseOn : Event → Bool) (st : LoopState) : RunResult :=
  if st.count = 0 ∧ st.running then
    if raiseOn Event.announceFinal then
      ⟨⟨false, st.count, st.endTime, st.clock⟩, [], [], [], true⟩
    else if raiseOn (Event.observer 0) then
      ⟨⟨false, st.count, st.endTime, st.clock⟩,
        [Event.announceFinal, Event.observer 0], [], [], true⟩
    else
      ⟨⟨false, st.count, st.endTime, st.clock⟩,
        [Event.announceFinal, Event.observer 0], [], [], false⟩
  else ⟨⟨false, st.count, st.endTime, st.clock⟩, [], [], [], false⟩

/-- The timing loop of `_run_countdown` (lines 109-143).  Each iteration:
check `_running and _current_count > 0`; sample the clock (line 111);
if `time_to_next <= 0` force the count to 0 and break (lines 114-116);
compute `1.0 - fractional part of now` and sleep
`min(time_until_next_second, time_to_next)` if positive (lines 119-124);
re-check `_running` (lines 126-127); recompute
`new_count = int(end - now) + 1` (line 130) and on a decrement store it,
dispatch its utterance and invoke the callback (lines 131-135).  The
schedule list supplies the two scheduling delays of each iteration; `none`
means the schedule was exhausted while the loop still wanted to iterate. -/
def runLoop (raiseOn : Event → Bool) :
    List IterSched → LoopState → Option RunResult
  | [], st =>
      if st.running ∧ 0 < st.count then none
      else some (completion raiseOn st)
  | sc :: rest, st =>
      if st.running ∧ 0 < st.count then
        let u := st.clock + sc.d1
        if st.endTime - u ≤ 0 then
          let res := completion raiseOn { st with count := 0, clock := u }
          some { res with counts := 0 :: res.counts }
        else
          let s := min (1 - Int.fract u) (st.endTime - u)
          let slept := if 0 < s then s else 0
          let v := u + slept + sc.d2
          if st.running = false then
            some (completion raiseOn { st with clock := v })
          else
            let newCount := pyInt (st.endTime - v) + 1
            if newCount < st.count then
              if raiseOn (Event.announce newCount) then
                some ⟨⟨false, newCount, st.endTime, v⟩, [], [newCount], [slept], true⟩
              else if raiseOn (Event.observer newCount) then
                some ⟨⟨false, newCount, st.endTime, v⟩,
                  (if 0 < newCount then [Event.announce newCount] else []) ++
                    [Event.observer newCount],
                  [newCount], [slept], true⟩
              else
                (runLoop raiseOn rest ⟨true, newCount, st.endTime, v⟩).map
                  fun res =>
                    ⟨res.final,
                      ((if 0 < newCount then [Event.announce newCount] else []) ++
                        [Event.observer newCount]) ++ res.events,
                      newCount :: res.counts, slept :: res.sleeps, res.exc⟩
            else
              (runLoop raiseOn rest { st with clock := v }).map
                fun res => { res with sleeps := slept :: res.sleeps }
      else some (completion raiseOn st)

/-- A callback/dispatch behaviour that never raises. -/
def noRaise : Event → Bool := fun _ => false

/-- A full run: `start(N, callback)` at wall time `T` (lines 92-105: set
the state, speak the initial count, spawn the loop) followed by the loop.
Defined only for positive `N` (otherwise `start` raises before any state
change, see `start` below). -/
def countdownRun (N : ℤ) (T : ℚ) (sched : List IterSched)
    (raiseOn : Event → Bool) : Option RunResult :=
  if 0 < N then
    (runLoop raiseOn sched ⟨true, N, T + N, T⟩).map fun res =>
      { res with events := Event.announce N :: res.events,
                 counts := N :: res.counts }
  else none

/-- The fields of a `CountdownTimer` object touched by the lifecycle
operations (`__init__` lines 38-46, `start`, `stop`, the two properties).
The TTS engine and the lock are external resources, not modelled. -/
structure Engine where
  running : Bool
  currentCount : ℤ
  startTime : Option ℚ
  endTime : Option ℚ
  callbackSet : Bool
  countThread : Bool
deriving DecidableEq

/-- The two precondition failures of `start`: `RuntimeError` at line 87 and
`ValueError` at line 90. -/
inductive StartError where
  | alreadyRunning
  | invalidDuration
deriving DecidableEq

/-- `CountdownTimer.start` (lines 72-105).  Both error paths raise before
any field is assigned, so on error the engine is returned unchanged.  On
success the fields are set, the initial count is spoken when
`start_immediately` (the count is positive, so the utterance is delivered),
and the countdown thread is spawned; `start` returns without running any
loop iteration. -/
def start (e : Engine) (seconds : ℤ) (cb : Bool) (startImmediately : Bool)
    (now : ℚ) : Engine × Option StartError × List Event :=
  if e.running then (e, some StartError.alreadyRunning, [])
  else if seconds ≤ 0 then (e, some StartError.invalidDuration, [])
  else
    (⟨true, seconds, some now, some (now + seconds), cb, true⟩, none,
      if startImmediately then [Event.announce seconds] else [])

/-- `CountdownTimer.stop` (lines 164-169): clear `_running`, join the
thread (bounded wait, no state effect), clear the thread handle. -/
def stop (e : Engine) : Engine := { e with running := false, countThread := false }

/-- The `is_running` property (lines 171-174). -/
def isRunning (e : Engine) : Bool := e.running

/-- The `current_count` property (lines 176-179). -/
def currentCount (e : Engine) : ℤ := e.currentCount

/-- The engine as observed after its countdown thread has finished:
`_running` and `_current_count` hold whatever the loop left there. -/
def afterRun (e : Engine) (res : RunResult) : Engine :=
  { e with running := res.final.running, currentCount := res.final.count }

/-- A callback behaviour that raises when invoked with the value 2
(used to exercise the exception path through the `finally` block). -/
def raiseOnObserverTwo : Event → Bool := fun e => decide (e = Event.observer 2)

/-- Scheduling data for one iteration of the stop-aware loop model: `d1` as
in `IterSched`, `d2` the sleep overshoot up to the line-126 flag check, and
`d3` the further delay up to the line-130 clock sample. -/
structure IterSched3 where
  d1 : ℚ
  d2 : ℚ
  d3 : ℚ
deriving DecidableEq

/-- An event together with the wall-clock instant at which the loop issued
it. -/
structure TimedEvent where
  time : ℚ
  ev : Event
deriving DecidableEq

/-- Result of a run of the stop-aware loop model: final `_current_count`,
the instant the loop exited, the issued events with their instants, and the
instants of every read of `_running` at lines 110 and 126. -/
structure StopRun where
  finalCount : ℤ
  exitTime : ℚ
  events : List TimedEvent
  checks : List ℚ
deriving DecidableEq

/-- The completion step (lines 137-141) in the coarse stop-aware model:
the read of `_running` at line 138 happens at instant `t` and yields true
iff `t < stopAt`.  This coarse model gives the read and the subsequent
emissions one and the same instant; `stopCompletionEmit` below refines it
with explicit delays between the read, the completion utterance and
`callback(0)`. -/
def stopCompletion (stopAt : ℚ) (count : ℤ) (t : ℚ) : StopRun :=
  ⟨count, t,
    if count = 0 ∧ t < stopAt then
      [⟨t, Event.announceFinal⟩, ⟨t, Event.observer 0⟩]
    else [], []⟩

/-- The timing loop of `_run_countdown` with an external `stop()` issued at
wall time `stopAt`: `stop` sets `_running := False`, so a read of the flag
at instant `t` yields true iff `t < stopAt` (the loop itself only clears
the flag in its `finally`, after all reads modelled here).  The iteration
structure is exactly that of `runLoop`; additionally every flag read
(line 110 at the iteration start, line 126 after the sleep) is recorded in
`checks`.  This coarse model stamps an iteration's emissions with the
line-130 sample instant and is used only for the check instants and
control flow; `runLoopStopEmit` below refines it with explicit emission
instants. -/
def runLoopStop (stopAt E : ℚ) :
    List IterSched3 → ℤ → ℚ → Option StopRun
  | [], count, clock =>
      if clock < stopAt ∧ 0 < count then none
      else
        let res := stopCompletion stopAt count clock
        some { res with checks := [clock] }
  | sc :: rest, count, clock =>
      if clock < stopAt ∧ 0 < count then
        let u := clock + sc.d1
        if E - u ≤ 0 then
          let res := stopCompletion stopAt 0 u
          some { res with checks := [clock] }
        else
          let s := min (1 - Int.fract u) (E - u)
          let w := u + (if 0 < s then s else 0) + sc.d2
          if stopAt ≤ w then some ⟨count, w, [], [clock, w]⟩
          else
            let v := w + sc.d3
            let newCount := pyInt (E - v) + 1
            if newCount < count then
              (runLoopStop stopAt E rest newCount v).map fun res =>
                ⟨res.finalCount, res.exitTime,
                  ((if 0 < newCount then [⟨v, Event.announce newCount⟩] else []) ++
                    [⟨v, Event.observer newCount⟩]) ++ res.events,
                  clock :: w :: res.checks⟩
            else
              (runLoopStop stopAt E rest count v).map fun res =>
                ⟨res.finalCount, res.exitTime, res.events,
                  clock :: w :: res.checks⟩
      else
        let res := stopCompletion stopAt count clock
        some { res with checks := [clock] }

/-- Scheduling data for one iteration of the emission-timed stop-aware
loop model: `d1`, `d2`, `d3` as in `IterSched3`, plus `d4`, the delay
from the line-130 sample to the line-133 announcement dispatch, and `d5`,
the delay from that dispatch to the line-135 observer call returning
control to the loop.  Valid schedules have all components nonnegative. -/
structure IterSchedEmit where
  d1 : ℚ
  d2 : ℚ
  d3 : ℚ
  d4 : ℚ
  d5 : ℚ
deriving DecidableEq

/-- The completion step (lines 137-141) with explicit instants: after the
loop exits at instant `t`, line 138 first tests `_current_count == 0` and
only then reads `_running` (Python `and` short-circuits), at instant
`t + e0`; the completion utterance is dispatched at `t + e0 + e1` and
`callback(0)` runs at `t + e0 + e1 + e2`.  A stop landing between the
read and the emissions does not prevent them: the completion pair can be
issued after `_running` has turned false. -/
def stopCompletionEmit (stopAt e0 e1 e2 : ℚ) (count : ℤ) (t : ℚ) :
    StopRun :=
  ⟨count, t,
    if count = 0 ∧ t + e0 < stopAt then
      [⟨t + e0 + e1, Event.announceFinal⟩,
        ⟨t + e0 + e1 + e2, Event.observer 0⟩]
    else [], []⟩

/-- The timing loop of `_run_countdown` with an external `stop()` at wall
time `stopAt`, refining `runLoopStop` with emission instants: in a
decrement iteration the count's utterance is dispatched at `d4` after the
line-130 sample, the observer call runs `d5` later and the loop resumes
only then, and the completion step uses `e0`, `e1`, `e2` as in
`stopCompletionEmit`.  A stop request landing between a passed running
check (line 126, or the line-138 read) and the emissions that follow it
leaves those emissions to be issued after the flag has turned false,
exactly as in the source. -/
def runLoopStopEmit (stopAt E e0 e1 e2 : ℚ) :
    List IterSchedEmit → ℤ → ℚ → Option StopRun
  | [], count, clock =>
      if clock < stopAt ∧ 0 < count then none
      else
        let res := stopCompletionEmit stopAt e0 e1 e2 count clock
        some { res with checks := [clock] }
  | sc :: rest, count, clock =>
      if clock < stopAt ∧ 0 < count then
        let u := clock + sc.d1
        if E - u ≤ 0 then
          let res := stopCompletionEmit stopAt e0 e1 e2 0 u
          some { res with checks := [clock] }
        else
          let s := min (1 - Int.fract u) (E - u)
          let w := u + (if 0 < s then s else 0) + sc.d2
          if stopAt ≤ w then some ⟨count, w, [], [clock, w]⟩
          else
            let v := w + sc.d3
            let newCount := pyInt (E - v) + 1
            if newCount < count then
              let a := v + sc.d4
              let c := a + sc.d5
              (runLoopStopEmit stopAt E e0 e1 e2 rest newCount c).map
                fun res =>
                  ⟨res.finalCount, res.exitTime,
                    ((if 0 < newCount then [⟨a, Event.announce newCount⟩]
                      else []) ++
                      [⟨c, Event.observer newCount⟩]) ++ res.events,
                    clock :: w :: res.checks⟩
            else
              (runLoopStopEmit stopAt E e0 e1 e2 rest count v).map
                fun res =>
                  ⟨res.finalCount, res.exitTime, res.events,
                    clock :: w :: res.checks⟩
      else
        let res := stopCompletionEmit stopAt e0 e1 e2 count clock
        some { res with checks := [clock] }

/-- What a run may still issue at or after the stop instant: nothing, or
the remaining emissions of the single in-flight emission step — an
observer call alone, a count's announcement followed by its observer
call, or the completion utterance followed by `observer(0)`. -/
def inflightTail (evs : List TimedEvent) : Prop :=
  evs = [] ∨
    (∃ t k, evs = [⟨t, Event.observer k⟩]) ∨
    (∃ t t' k, t ≤ t' ∧
      evs = [⟨t, Event.announce k⟩, ⟨t', Event.observer k⟩]) ∨
    ∃ t t', t ≤ t' ∧
      evs = [⟨t, Event.announceFinal⟩, ⟨t', Event.observer 0⟩]

/-- The list `[n, n-1, ..., 1, 0]` of successive `_current_count` values of
an undisturbed run started at `n`. -/
def descList : ℕ → List ℤ
  | 0 => [0]
  | n + 1 => ((n : ℤ) + 1) :: descList n

/-- The events issued by the loop from the moment `_current_count = k + 1`
onward in an undisturbed run: announcements and observer calls for
`k, k-1, ..., 1`, then the completion pair. -/
def loopEvents : ℕ → List Event
  | 0 => [Event.announceFinal, Event.observer 0]
  | n + 1 =>
      Event.announce ((n : ℤ) + 1) :: Event.observer ((n : ℤ) + 1) ::
        loopEvents n

/-! Helper lemmas. -/

lemma completion_final_running (raiseOn : Event → Bool) (st : LoopState) :
    (completion raiseOn st).final.running = false := by
  unfold completion
  repeat' split
  all_goals rfl

lemma completion_counts (raiseOn : Event → Bool) (st : LoopState) :
    (completion raiseOn st).counts = [] := by
  unfold completion
  repeat' split
  all_goals rfl

lemma sleep_pos (u r : ℚ) (hr : 0 < r) : 0 < min (1 - Int.fract u) r :=
  lt_min (by linarith [Int.fract_lt_one u]) hr

lemma fract_int_add_small (m : ℤ) (x : ℚ) (h0 : 0 ≤ x) (h1 : x < 1) :
    Int.fract ((m : ℚ) + x) = x := by
  rw [Int.fract_int_add, Int.fract_eq_self.mpr ⟨h0, h1⟩]

lemma pyInt_int_add (k : ℤ) (x : ℚ) (hk : 0 ≤ k) (h0 : 0 ≤ x) (h1 : x < 1) :
    pyInt ((k : ℚ) + x) = k := by
  have hfl : ⌊(k : ℚ) + x⌋ = k := by
    rw [add_comm, Int.floor_add_int, Int.floor_eq_zero_iff.mpr ⟨h0, h1⟩,
      zero_add]
  have hpos : 0 ≤ (k : ℚ) + x := by
    have : (0 : ℚ) ≤ (k : ℚ) := by exact_mod_cast hk
    linarith
  rw [pyInt, if_pos hpos, hfl]

lemma pyInt_neg_small (x : ℚ) (h0 : 0 ≤ x) (h1 : x < 1) : pyInt (-x) = 0 := by
  rcases eq_or_lt_of_le h0 with h | h
  · rw [← h, neg_zero, pyInt, if_pos le_rfl, Int.floor_zero]
  · rw [pyInt, if_neg (by linarith),
      Int.ceil_eq_zero_iff.mpr ⟨by linarith, by linarith⟩]

lemma runLoop_final_running (raiseOn : Event → Bool) :
    ∀ (sched : List IterSched) (st : LoopState) (res : RunResult),
      runLoop raiseOn sched st = some res → res.final.running = false := by
  intro sched
  induction sched with
  | nil =>
    intro st res h
    simp only [runLoop] at h
    split at h
    · exact absurd h (by simp)
    · cases h
      exact completion_final_running raiseOn st
  | cons sc rest ih =>
    intro st res h
    simp only [runLoop] at h
    repeat' split at h
    all_goals
      first
      | (obtain rfl := Option.some.inj h
         first
         | rfl
         | exact completion_final_running raiseOn _)
      | (rw [Option.map_eq_some'] at h
         obtain ⟨a, ha, rfl⟩ := h
         exact ih _ a ha)

lemma runLoop_forced_zero (sc : IterSched) (rest : List IterSched)
    (cnt : ℤ) (E clk : ℚ) (hcnt : 0 < cnt)
    (hr : E - (clk + sc.d1) ≤ 0) :
    runLoop noRaise (sc :: rest) ⟨true, cnt, E, clk⟩ =
      some ⟨⟨false, 0, E, clk + sc.d1⟩,
        [Event.announceFinal, Event.observer 0], [0], [], false⟩ := by
  simp only [runLoop]
  rw [if_pos ⟨by trivial, hcnt⟩, if_pos hr]
  simp [completion, noRaise]

lemma runLoop_cons_step (sc : IterSched) (rest : List IterSched)
    (cnt : ℤ) (E clk : ℚ) (u s v : ℚ) (nc : ℤ) (hcnt : 0 < cnt)
    (hu : u = clk + sc.d1) (hr : 0 < E - u)
    (hs : s = min (1 - Int.fract u) (E - u))
    (hv : v = u + s + sc.d2)
    (hnc : nc = pyInt (E - v) + 1) :
    runLoop noRaise (sc :: rest) ⟨true, cnt, E, clk⟩ =
      if nc < cnt then
        (runLoop noRaise rest ⟨true, nc, E, v⟩).map fun res =>
          ⟨res.final,
            ((if 0 < nc then [Event.announce nc] else []) ++
              [Event.observer nc]) ++ res.events,
            nc :: res.counts, s :: res.sleeps, res.exc⟩
      else
        (runLoop noRaise rest ⟨true, cnt, E, v⟩).map fun res =>
          { res with sleeps := s :: res.sleeps } := by
  subst hu hs hv hnc
  simp only [runLoop]
  rw [if_pos ⟨by trivial, hcnt⟩, if_neg (not_le.mpr hr),
    if_pos (sleep_pos (clk + sc.d1) _ hr), if_neg (by simp)]
  simp only [noRaise, Bool.false_eq_true, if_false]

/-! Claim theorems. -/

/-- C6: `start(durationSeconds, observer)` on a non-running engine with a
positive duration sets `running` to true, `currentCount` to the duration,
`endTime` to now plus the duration, stores the observer, immediately
issues the announcement for the initial count, marks the countdown thread
spawned, and returns without executing any loop iteration (the returned
event list holds only the initial announcement). -/
theorem start_effects (e : Engine) (s : ℤ) (cb : Bool) (now : ℚ)
    (hrun : e.running = false) (hs : 0 < s) :
    start e s cb true now =
      (⟨true, s, some now, some (now + s), cb, true⟩, none,
        [Event.announce s]) := by
  simp [start, hrun, not_le.mpr hs]

theorem start_effects_witness :
    start ⟨false, 0, none, none, false, false⟩ 5 true true 0 =
      (⟨true, 5, some 0, some (0 + 5), true, true⟩, none,
        [Event.announce 5]) :=
  start_effects ⟨false, 0, none, none, false, false⟩ 5 true 0 rfl
    (by norm_num)

/-- C7: `start` on a running engine raises `RuntimeError`
(AlreadyRunningError) and on a non-running engine with a nonpositive
duration raises `ValueError` (InvalidDurationError); both raises happen
before any field assignment, so the engine is unchanged, `is_running`
stays false in the second case, and no announcement or observer event is
issued. -/
theorem start_error_handling (e : Engine) (s : ℤ) (cb si : Bool) (now : ℚ) :
    (e.running = true →
      start e s cb si now = (e, some StartError.alreadyRunning, [])) ∧
    (e.running = false → s ≤ 0 →
      start e s cb si now = (e, some StartError.invalidDuration, []) ∧
        isRunning (start e s cb si now).1 = false ∧
        (start e s cb si now).2.2 = []) := by
  constructor
  · intro h
    simp [start, h]
  · intro h hs
    refine ⟨by simp [start, h, hs], ?_, by simp [start, h, hs]⟩
    simp [start, h, hs, isRunning]

theorem start_error_handling_witness :
    start ⟨false, 0, none, none, false, false⟩ 0 true true 0 =
      (⟨false, 0, none, none, false, false⟩,
        some StartError.invalidDuration, []) :=
  (((start_error_handling ⟨false, 0, none, none, false, false⟩ 0 true true
    0).2) rfl (by norm_num)).1

/-- C1 (code evaluated at the failing input): a run of `Start(3)` whose
single sleep overshoots by 3.5 s wakes with remaining time `-3/2`; line 130
computes `int(-3/2) + 1 = 0`, so the loop assigns `currentCount = 0`
*inside* the decrement branch and invokes `observer(0)` there, and then the
completion step fires again: the completed (never stopped) run delivers
`observer(0)` twice, contradicting the claimed exactly-once delivery on
overshoot. -/
theorem overshoot_double_completion :
    countdownRun 3 0 [⟨0, 7/2⟩] noRaise =
      some ⟨⟨false, 0, 3, 9/2⟩,
        [Event.announce 3, Event.observer 0, Event.announceFinal,
          Event.observer 0], [3, 0], [1], false⟩ ∧
      List.count (Event.observer 0)
        [Event.announce 3, Event.observer 0, Event.announceFinal,
          Event.observer 0] = 2 := by
  constructor
  · have hpy : pyInt (-(3/2 : ℚ)) = -1 := by
      rw [pyInt, if_neg (by norm_num), Int.ceil_eq_iff]
      norm_num
    norm_num [countdownRun, runLoop, completion, noRaise, Int.fract_zero, hpy]
  · decide

/-- C4 (counterexample): in a run of `Start(3)` whose first sleep
overshoots by 2.5 s, the line-130 recompute sees the negative remaining
time `-1/2`; the claim says the run is then complete with
`currentCount = 0` (floor gives `⌊-1/2⌋ + 1 = 0`), but the code computes
`int(-1/2) + 1 = 1` (truncation toward zero), assigns `currentCount = 1`,
announces the skipped count 1 and invokes `observer(1)`, and only the next
top-of-loop check completes the run. -/
theorem negative_remaining_not_completed :
    countdownRun 3 0 [⟨0, 5/2⟩, ⟨0, 0⟩] noRaise =
      some ⟨⟨false, 0, 3, 7/2⟩,
        [Event.announce 3, Event.announce 1, Event.observer 1,
          Event.announceFinal, Event.observer 0], [3, 1, 0], [1], false⟩ ∧
      pyInt (-(1/2 : ℚ)) + 1 = 1 ∧ ⌊(-(1/2 : ℚ))⌋ + 1 = 0 := by
  refine ⟨?_, ?_, ?_⟩
  · have hpy : pyInt (-(1/2 : ℚ)) = 0 := by
      rw [pyInt, if_neg (by norm_num), Int.ceil_eq_iff]
      norm_num
    norm_num [countdownRun, runLoop, completion, noRaise, Int.fract_zero, hpy]
  · have hc : (⌈-(1/2 : ℚ)⌉ : ℤ) = 0 := by
      rw [Int.ceil_eq_iff]
      norm_num
    rw [pyInt, if_neg (by norm_num), hc]
    norm_num
  · have hf : (⌊-(1/2 : ℚ)⌋ : ℤ) = -1 := by
      rw [Int.floor_eq_iff]
      norm_num
    rw [hf]
    norm_num

/-- C4 (amended): whenever the loop recomputes the count after waking, the
new count is `int(endTime - now) + 1` with `int` truncating toward zero:
this equals `⌊endTime - now⌋ + 1` whenever `endTime - now` is nonnegative,
while for negative `endTime - now` it equals `⌈endTime - now⌉ + 1`, which
is at least the floor-based value (so the run is not necessarily complete
at that point); when the recomputed count is below the current count it
becomes the next value of `currentCount`. -/
theorem recompute_truncation (st : LoopState) (sc : IterSched)
    (rest : List IterSched) (res : RunResult) (hrun : st.running = true)
    (hcnt : 0 < st.count) (hr : 0 < st.endTime - (st.clock + sc.d1))
    (h : runLoop noRaise (sc :: rest) st = some res) :
    (∀ q : ℚ, 0 ≤ q → pyInt q + 1 = ⌊q⌋ + 1) ∧
    (∀ q : ℚ, q < 0 → pyInt q + 1 = ⌈q⌉ + 1 ∧ ⌊q⌋ + 1 ≤ pyInt q + 1) ∧
    (pyInt (st.endTime - (st.clock + sc.d1 +
          min (1 - Int.fract (st.clock + sc.d1))
            (st.endTime - (st.clock + sc.d1)) + sc.d2)) + 1 < st.count →
      res.counts.head? =
        some (pyInt (st.endTime - (st.clock + sc.d1 +
          min (1 - Int.fract (st.clock + sc.d1))
            (st.endTime - (st.clock + sc.d1)) + sc.d2)) + 1)) := by
  refine ⟨?_, ?_, ?_⟩
  · intro q hq
    rw [pyInt, if_pos hq]
  · intro q hq
    rw [pyInt, if_neg (not_le.mpr hq)]
    exact ⟨rfl, by have := Int.floor_le_ceil q; omega⟩
  · intro hlt
    obtain ⟨r, cnt, E0, clk⟩ := st
    subst hrun
    dsimp only at hlt h hr hcnt ⊢
    rw [runLoop_cons_step sc rest cnt E0 clk _ _ _ _ hcnt rfl hr rfl rfl
      rfl, if_pos hlt] at h
    rw [Option.map_eq_some'] at h
    obtain ⟨a, _, rfl⟩ := h
    rfl

theorem recompute_truncation_witness : pyInt 2 + 1 = ⌊(2 : ℚ)⌋ + 1 := by
  have hpy : pyInt (-(1/2 : ℚ)) = 0 := by
    rw [pyInt, if_neg (by norm_num), Int.ceil_eq_iff]
    norm_num
  have hloop : runLoop noRaise [⟨0, 5/2⟩, ⟨0, 0⟩] ⟨true, 3, 3, 0⟩ =
      some ⟨⟨false, 0, 3, 7/2⟩,
        [Event.announce 1, Event.observer 1, Event.announceFinal,
          Event.observer 0], [1, 0], [1], false⟩ := by
    norm_num [runLoop, completion, noRaise, Int.fract_zero, hpy]
  exact (recompute_truncation ⟨true, 3, 3, 0⟩ ⟨0, 5/2⟩ [⟨0, 0⟩] _ rfl
    (by norm_num) (by norm_num) hloop).1 2 (by norm_num)

/-- C8: on every loop iteration with the loop running and positive
remaining time, the duration slept is
`min(1 - fractional_part(now), remaining)` (recorded first in the run's
sleep list); with nonpositive remaining time the iteration instead forces
`currentCount = 0` and goes straight to the completion step, sleeping not
at all. -/
theorem iteration_sleep_structure (st : LoopState) (sc : IterSched)
    (rest : List IterSched) (hrun : st.running = true)
    (hcnt : 0 < st.count) :
    (st.endTime - (st.clock + sc.d1) ≤ 0 →
      runLoop noRaise (sc :: rest) st =
        some ⟨⟨false, 0, st.endTime, st.clock + sc.d1⟩,
          [Event.announceFinal, Event.observer 0], [0], [], false⟩) ∧
    (0 < st.endTime - (st.clock + sc.d1) →
      ∀ res, runLoop noRaise (sc :: rest) st = some res →
        res.sleeps.head? =
          some (min (1 - Int.fract (st.clock + sc.d1))
            (st.endTime - (st.clock + sc.d1)))) := by
  obtain ⟨r, cnt, E0, clk⟩ := st
  subst hrun
  dsimp only at hcnt ⊢
  constructor
  · intro hr
    exact runLoop_forced_zero sc rest cnt E0 clk hcnt hr
  · intro hr res h
    rw [runLoop_cons_step sc rest cnt E0 clk _ _ _ _ hcnt rfl hr rfl rfl
      rfl] at h
    split at h
    all_goals
      rw [Option.map_eq_some'] at h
      obtain ⟨a, _, rfl⟩ := h
      rfl

theorem iteration_sleep_structure_witness :
    runLoop noRaise [⟨0, 0⟩] ⟨true, 2, 1, 2⟩ =
      some ⟨⟨false, 0, 1, 2⟩, [Event.announceFinal, Event.observer 0],
        [0], [], false⟩ := by
  have h := (iteration_sleep_structure ⟨true, 2, 1, 2⟩ ⟨0, 0⟩ [] rfl
    (by norm_num)).1 (by norm_num)
  rw [h]
  norm_num

/-- C9: a run that ends (in particular one that completes naturally,
never having been stopped) leaves `_running` false, so the engine then
reports `is_running` false, and a subsequent `start` with a positive
duration succeeds silently — exactly as on a never-started engine — rather
than raising `RuntimeError` (AlreadyRunningError). -/
theorem restart_after_completion (sched : List IterSched) (st : LoopState)
    (res : RunResult) (e : Engine) (s : ℤ) (cb si : Bool) (now : ℚ)
    (h : runLoop noRaise sched st = some res) (hs : 0 < s) :
    isRunning (afterRun e res) = false ∧
      (start (afterRun e res) s cb si now).2.1 = none ∧
      (start (afterRun e res) s cb si now).1.running = true := by
  have hfin := runLoop_final_running noRaise sched st res h
  have hrun : (afterRun e res).running = false := by
    simp [afterRun, hfin]
  refine ⟨by simp [isRunning, hrun], ?_, ?_⟩ <;>
    simp [start, hrun, not_le.mpr hs]

theorem restart_after_completion_witness :
    isRunning (afterRun ⟨false, 0, none, none, true, true⟩
      ⟨⟨false, 0, 3, 3⟩,
        [Event.announce 2, Event.observer 2, Event.announce 1,
          Event.observer 1, Event.announceFinal, Event.observer 0],
        [2, 1, 0], [1, 1, 1], false⟩) = false ∧
      (start (afterRun ⟨false, 0, none, none, true, true⟩
        ⟨⟨false, 0, 3, 3⟩,
          [Event.announce 2, Event.observer 2, Event.announce 1,
            Event.observer 1, Event.announceFinal, Event.observer 0],
          [2, 1, 0], [1, 1, 1], false⟩) 4 true true 10).2.1 = none ∧
      (start (afterRun ⟨false, 0, none, none, true, true⟩
        ⟨⟨false, 0, 3, 3⟩,
          [Event.announce 2, Event.observer 2, Event.announce 1,
            Event.observer 1, Event.announceFinal, Event.observer 0],
          [2, 1, 0], [1, 1, 1], false⟩) 4 true true 10).1.running =
        true := by
  have hpy2 : pyInt (2 : ℚ) = 2 := by
    rw [pyInt, if_pos (by norm_num), Int.floor_eq_iff]
    norm_num
  have hpy1 : pyInt (1 : ℚ) = 1 := by
    rw [pyInt, if_pos (by norm_num), Int.floor_eq_iff]
    norm_num
  have hpy0 : pyInt (0 : ℚ) = 0 := by
    rw [pyInt, if_pos le_rfl, Int.floor_zero]
  have hfr2 : Int.fract (2 : ℚ) = 0 := by
    rw [show (2 : ℚ) = ((2 : ℤ) : ℚ) by norm_num, Int.fract_intCast]
  have hloop : runLoop noRaise [⟨0, 0⟩, ⟨0, 0⟩, ⟨0, 0⟩, ⟨0, 0⟩]
      ⟨true, 3, 3, 0⟩ =
      some ⟨⟨false, 0, 3, 3⟩,
        [Event.announce 2, Event.observer 2, Event.announce 1,
          Event.observer 1, Event.announceFinal, Event.observer 0],
        [2, 1, 0], [1, 1, 1], false⟩ := by
    norm_num [runLoop, completion, noRaise, Int.fract_zero, Int.fract_one,
      hfr2, hpy2, hpy1, hpy0]
  exact restart_after_completion [⟨0, 0⟩, ⟨0, 0⟩, ⟨0, 0⟩, ⟨0, 0⟩]
    ⟨true, 3, 3, 0⟩ _ ⟨false, 0, none, none, true, true⟩ 4 true true 10
    hloop (by norm_num)

/-- C10: the loop body (lines 110-141) is wrapped in `try`/`finally`
(lines 109, 142-143), so every exit path of `_run_countdown` — natural
completion, an observed stop (entering with `_running` false), or an
exception raised by the observer callback or by announcement dispatch (any
`raiseOn` behaviour, including every run that ends with `exc = true`) —
leaves `_running` false; consequently `is_running` cannot remain true
after the loop terminates, and a subsequent `start` with positive duration
is accepted. -/
theorem finally_clears_running (raiseOn : Event → Bool)
    (sched : List IterSched) (st : LoopState) (res : RunResult)
    (h : runLoop raiseOn sched st = some res) :
    res.final.running = false ∧
      ∀ (e : Engine) (s : ℤ) (cb si : Bool) (now : ℚ),
        e.running = res.final.running → 0 < s →
        (start e s cb si now).2.1 = none ∧
        (start e s cb si now).1.running = true := by
  have hfin := runLoop_final_running raiseOn sched st res h
  refine ⟨hfin, ?_⟩
  intro e s cb si now he hs
  rw [hfin] at he
  constructor <;> simp [start, he, not_le.mpr hs]

theorem finally_clears_running_witness :
    (⟨⟨false, 2, 3, 2⟩, [Event.announce 2, Event.observer 2], [2], [1, 1],
        true⟩ : RunResult).final.running = false ∧
      (start ⟨false, 2, none, none, true, true⟩ 4 true true 10).2.1 =
        none ∧
      (start ⟨false, 2, none, none, true, true⟩ 4 true true
        10).1.running = true := by
  have hpy2 : pyInt (2 : ℚ) = 2 := by
    rw [pyInt, if_pos (by norm_num), Int.floor_eq_iff]
    norm_num
  have hpy1 : pyInt (1 : ℚ) = 1 := by
    rw [pyInt, if_pos (by norm_num), Int.floor_eq_iff]
    norm_num
  have hloop : runLoop raiseOnObserverTwo [⟨0, 0⟩, ⟨0, 0⟩]
      ⟨true, 3, 3, 0⟩ =
      some ⟨⟨false, 2, 3, 2⟩, [Event.announce 2, Event.observer 2], [2],
        [1, 1], true⟩ := by
    norm_num [runLoop, completion, raiseOnObserverTwo, Int.fract_zero,
      Int.fract_one, hpy2, hpy1]
    simp
  have h := finally_clears_running raiseOnObserverTwo [⟨0, 0⟩, ⟨0, 0⟩]
    ⟨true, 3, 3, 0⟩ _ hloop
  exact ⟨h.1, h.2 ⟨false, 2, none, none, true, true⟩ 4 true true 10 rfl
    (by norm_num)⟩

lemma runLoopStop_checks_head (stopAt E : ℚ) :
    ∀ (sched : List IterSched3) (count : ℤ) (clock : ℚ) (res : StopRun),
      runLoopStop stopAt E sched count clock = some res →
      res.checks.head? = some clock := by
  intro sched
  induction sched with
  | nil =>
    intro count clock res h
    simp only [runLoopStop] at h
    split at h
    · exact Option.noConfusion h
    · obtain rfl := Option.some.inj h
      rfl
  | cons sc rest ih =>
    intro count clock res h
    simp only [runLoopStop] at h
    repeat' split at h
    all_goals
      first
      | (obtain rfl := Option.some.inj h; rfl)
      | (rw [Option.map_eq_some'] at h
         obtain ⟨a, _, rfl⟩ := h
         rfl)

lemma stopCompletionEmit_split (stopAt e0 e1 e2 : ℚ) (he2 : 0 ≤ e2)
    (count : ℤ) (t : ℚ) :
    ∃ early late,
      (stopCompletionEmit stopAt e0 e1 e2 count t).events =
        early ++ late ∧
      (∀ te ∈ early, te.time < stopAt) ∧
      (∀ te ∈ late, stopAt ≤ te.time) ∧ inflightTail late := by
  unfold stopCompletionEmit
  dsimp only
  split
  case isTrue h =>
    rcases lt_or_ge (t + e0 + e1 + e2) stopAt with h2 | h2
    · refine ⟨[⟨t + e0 + e1, Event.announceFinal⟩,
        ⟨t + e0 + e1 + e2, Event.observer 0⟩], [],
        (List.append_nil _).symm, ?_, by simp, Or.inl rfl⟩
      intro te hte
      rcases List.mem_cons.mp hte with rfl | hte
      · show t + e0 + e1 < stopAt
        linarith
      rcases List.mem_cons.mp hte with rfl | hte
      · exact h2
      · exact absurd hte (List.not_mem_nil te)
    · rcases lt_or_ge (t + e0 + e1) stopAt with h1 | h1
      · refine ⟨[⟨t + e0 + e1, Event.announceFinal⟩],
          [⟨t + e0 + e1 + e2, Event.observer 0⟩], rfl, ?_, ?_,
          Or.inr (Or.inl ⟨t + e0 + e1 + e2, 0, rfl⟩)⟩
        · intro te hte
          rcases List.mem_cons.mp hte with rfl | hte
          · exact h1
          · exact absurd hte (List.not_mem_nil te)
        · intro te hte
          rcases List.mem_cons.mp hte with rfl | hte
          · exact h2
          · exact absurd hte (List.not_mem_nil te)
      · refine ⟨[], [⟨t + e0 + e1, Event.announceFinal⟩,
          ⟨t + e0 + e1 + e2, Event.observer 0⟩], rfl, by simp, ?_,
          Or.inr (Or.inr (Or.inr ⟨t + e0 + e1, t + e0 + e1 + e2,
            by linarith, rfl⟩))⟩
        intro te hte
        rcases List.mem_cons.mp hte with rfl | hte
        · exact h1
        rcases List.mem_cons.mp hte with rfl | hte
        · exact h2
        · exact absurd hte (List.not_mem_nil te)
  case isFalse =>
    exact ⟨[], [], rfl, by simp, by simp, Or.inl rfl⟩

lemma runLoopStopEmit_no_events_late (stopAt E e0 e1 e2 : ℚ)
    (he0 : 0 ≤ e0) :
    ∀ (sched : List IterSchedEmit) (count : ℤ) (clock : ℚ)
      (res : StopRun), stopAt ≤ clock →
      runLoopStopEmit stopAt E e0 e1 e2 sched count clock = some res →
      res.events = [] := by
  have hstop : ∀ (count : ℤ) (clock : ℚ), stopAt ≤ clock →
      (stopCompletionEmit stopAt e0 e1 e2 count clock).events = [] := by
    intro count clock hc
    unfold stopCompletionEmit
    dsimp only
    rw [if_neg]
    rintro ⟨-, hlt⟩
    linarith
  have hcond : ∀ (count : ℤ) (clock : ℚ), stopAt ≤ clock →
      ¬(clock < stopAt ∧ 0 < count) :=
    fun count clock hc h => absurd h.1 (not_lt.mpr hc)
  intro sched count clock res hc h
  cases sched with
  | nil =>
    simp only [runLoopStopEmit] at h
    rw [if_neg (hcond count clock hc)] at h
    obtain rfl := Option.some.inj h
    exact hstop count clock hc
  | cons sc rest =>
    simp only [runLoopStopEmit] at h
    rw [if_neg (hcond count clock hc)] at h
    obtain rfl := Option.some.inj h
    exact hstop count clock hc

/-- C2 (counterexample): `Start(3)` at wall time 0 with an external stop
request at time 1/100 s.  The loop's flag reads happen only at times 0
(line 110, before the stop) and 1.0 (line 126, after the full 1.0 s
sleep): no read falls within 100 ms of the stop request, which is observed
only 99/100 s later — the single `time.sleep(min(...))` call is not
decomposed into 100 ms slices and cannot be interrupted. -/
theorem stop_not_observed_within_tenth :
    runLoopStop (1/100) 3 [⟨0, 0, 0⟩] 3 0 = some ⟨3, 1, [], [0, 1]⟩ ∧
      (∀ t ∈ ([0, 1] : List ℚ), ¬((1/100 : ℚ) ≤ t ∧ t ≤ 1/100 + 1/10)) ∧
      (0 : ℚ) < 1/100 ∧ (1/10 : ℚ) < 1 - 1/100 := by
  refine ⟨?_, ?_, by norm_num, by norm_num⟩
  · norm_num [runLoopStop, stopCompletion, Int.fract_zero]
  · intro t ht
    rcases List.mem_cons.mp ht with rfl | ht
    · norm_num
    · rcases List.mem_cons.mp ht with rfl | ht
      · norm_num
      · exact absurd ht (List.not_mem_nil t)

/-- C2 (amended): the boundary-aligned sleep is the only suspension point
of the timing loop, but it is a single `time.sleep(min(untilNextSecond,
remaining))` call of up to 1.0 s that re-checks `_running` only after it
returns; hence, under jitter-free scheduling, consecutive reads of the
running flag are at most 1 s apart, so a stop request is observed within
at most one full sleep (up to 1 s) — not within 100 ms, and no ≤100 ms
slicing exists. -/
theorem stop_flag_check_gap_bounded (stopAt E : ℚ) :
    ∀ (sched : List IterSched3),
      (∀ sc ∈ sched, sc.d1 = 0 ∧ sc.d2 = 0 ∧ sc.d3 = 0) →
      ∀ (count : ℤ) (clock : ℚ) (res : StopRun),
        runLoopStop stopAt E sched count clock = some res →
        List.Chain' (fun a b => b ≤ a + 1) res.checks := by
  intro sched
  induction sched with
  | nil =>
    intro _ count clock res h
    simp only [runLoopStop] at h
    split at h
    · exact Option.noConfusion h
    · obtain rfl := Option.some.inj h
      simp
  | cons sc rest ih =>
    intro hz count clock res h
    obtain ⟨hd1, hd2, hd3⟩ := hz sc (List.mem_cons_self sc rest)
    have hz' : ∀ x ∈ rest, x.d1 = 0 ∧ x.d2 = 0 ∧ x.d3 = 0 :=
      fun x hx => hz x (List.mem_cons_of_mem sc hx)
    simp only [runLoopStop] at h
    have hslept : (if 0 < min (1 - Int.fract (clock + sc.d1))
        (E - (clock + sc.d1)) then
        min (1 - Int.fract (clock + sc.d1)) (E - (clock + sc.d1))
        else 0) ≤ 1 := by
      split
      · exact le_trans (min_le_left _ _)
          (by linarith [Int.fract_nonneg (clock + sc.d1)])
      · linarith
    generalize hw : clock + sc.d1 +
      (if 0 < min (1 - Int.fract (clock + sc.d1)) (E - (clock + sc.d1))
        then min (1 - Int.fract (clock + sc.d1)) (E - (clock + sc.d1))
        else 0) + sc.d2 = w at h
    have hwle : w ≤ clock + 1 := by
      rw [← hw]
      linarith
    generalize hv : w + sc.d3 = v at h
    have hvw : v = w := by
      rw [← hv, hd3, add_zero]
    generalize hnc : pyInt (E - v) + 1 = nc at h
    split at h
    case isFalse =>
      obtain rfl := Option.some.inj h
      simp
    case isTrue =>
      split at h
      case isTrue =>
        obtain rfl := Option.some.inj h
        simp
      case isFalse =>
        split at h
        case isTrue =>
          obtain rfl := Option.some.inj h
          simp [hwle]
        case isFalse =>
          split at h
          all_goals
            rw [Option.map_eq_some'] at h
            obtain ⟨a, ha, rfl⟩ := h
            have hhead := runLoopStop_checks_head stopAt E rest _ _ a ha
            have hchain := ih hz' _ _ a ha
            rw [List.chain'_cons']
            refine ⟨fun y hy => ?_, ?_⟩
            · simp only [List.head?_cons, Option.mem_def,
                Option.some.injEq] at hy
              subst hy
              exact hwle
            · rw [List.chain'_cons']
              refine ⟨fun y hy => ?_, hchain⟩
              rw [hhead, Option.mem_def, Option.some.injEq] at hy
              subst hy
              rw [hvw]
              linarith

theorem stop_flag_check_gap_bounded_witness :
    List.Chain' (fun a b : ℚ => b ≤ a + 1) [0, 1] := by
  have hloop : runLoopStop (1/100) 3 [⟨0, 0, 0⟩] 3 0 =
      some ⟨3, 1, [], [0, 1]⟩ := by
    norm_num [runLoopStop, stopCompletion, Int.fract_zero]
  exact stop_flag_check_gap_bounded (1/100) 3 [⟨0, 0, 0⟩]
    (by intro x hx
        rcases List.mem_cons.mp hx with rfl | hx
        · exact ⟨rfl, rfl, rfl⟩
        · exact absurd hx (List.not_mem_nil x))
    3 0 _ hloop

/-- C3 (counterexample): `Start(3)` at wall time 0 with a stop request at
time 21/20 s (= 1.05 s).  The loop's line-126 check at time 1.0 still saw
`_running` true; the iteration then dispatched the count-2 announcement
at 1.11 s and invoked the observer at 1.21 s — both after `running` had
transitioned to false, and neither a dispatch already in flight when the
flag was cleared.  Moreover (second run, stop at 31/10 s) the line-138
read at 3.0 s still saw the flag true and the completion utterance and
`observer(0)` were then issued at 31/10 s, at the stop instant: the
completion pair itself can arrive once `running` is false. -/
theorem late_observer_after_stop :
    (runLoopStopEmit (21/20) 3 0 0 0
        [⟨0, 0, 1/100, 1/10, 1/10⟩, ⟨0, 0, 0, 0, 0⟩] 3 0 =
      some ⟨2, 121/100,
        [⟨111/100, Event.announce 2⟩, ⟨121/100, Event.observer 2⟩],
        [0, 1, 121/100]⟩ ∧
      (21/20 : ℚ) ≤ 111/100) ∧
    runLoopStopEmit (31/10) 3 0 (1/10) 0
        [⟨0, 0, 0, 0, 0⟩, ⟨0, 0, 0, 0, 0⟩, ⟨0, 0, 0, 0, 0⟩,
          ⟨0, 0, 0, 0, 0⟩] 3 0 =
      some ⟨0, 3,
        [⟨2, Event.announce 2⟩, ⟨2, Event.observer 2⟩,
          ⟨3, Event.announce 1⟩, ⟨3, Event.observer 1⟩,
          ⟨31/10, Event.announceFinal⟩, ⟨31/10, Event.observer 0⟩],
        [0, 1, 1, 2, 2, 3, 3]⟩ := by
  refine ⟨⟨?_, by norm_num⟩, ?_⟩
  · have hpy : pyInt (199/100 : ℚ) = 1 := by
      rw [pyInt, if_pos (by norm_num), Int.floor_eq_iff]
      norm_num
    norm_num [runLoopStopEmit, stopCompletionEmit, Int.fract_zero, hpy]
  · have hpy2 : pyInt (2 : ℚ) = 2 := by
      rw [pyInt, if_pos (by norm_num), Int.floor_eq_iff]
      norm_num
    have hpy1 : pyInt (1 : ℚ) = 1 := by
      rw [pyInt, if_pos (by norm_num), Int.floor_eq_iff]
      norm_num
    have hpy0 : pyInt (0 : ℚ) = 0 := by
      rw [pyInt, if_pos le_rfl, Int.floor_zero]
    have hfr2 : Int.fract (2 : ℚ) = 0 := by
      rw [show (2 : ℚ) = ((2 : ℤ) : ℚ) by norm_num, Int.fract_intCast]
    norm_num [runLoopStopEmit, stopCompletionEmit, Int.fract_zero,
      Int.fract_one, hfr2, hpy2, hpy1, hpy0]

/-- C3 (amended): once `running` transitions to false, the loop issues no
further announcements or observer calls beyond the at most two remaining
emissions of the single in-flight emission step whose guarding running
check had already passed — the line-126 check for a count's
announcement/observer pair, or the line-138 read for the completion pair.
Formally: every run's event sequence splits into a prefix issued strictly
before the stop instant and a tail issued at or after it, and that tail
is empty, a lone observer call, one count's announcement followed by its
observer call, or the completion utterance followed by `observer(0)`;
every later iteration, and any completion step whose read saw the cleared
flag, issues nothing. -/
theorem late_events_are_inflight_suffix (stopAt E e0 e1 e2 : ℚ)
    (he0 : 0 ≤ e0) (he2 : 0 ≤ e2) :
    ∀ (sched : List IterSchedEmit),
      (∀ sc ∈ sched,
        0 ≤ sc.d1 ∧ 0 ≤ sc.d2 ∧ 0 ≤ sc.d3 ∧ 0 ≤ sc.d4 ∧ 0 ≤ sc.d5) →
      ∀ (count : ℤ) (clock : ℚ) (res : StopRun),
        runLoopStopEmit stopAt E e0 e1 e2 sched count clock = some res →
        ∃ early late, res.events = early ++ late ∧
          (∀ te ∈ early, te.time < stopAt) ∧
          (∀ te ∈ late, stopAt ≤ te.time) ∧ inflightTail late := by
  intro sched
  induction sched with
  | nil =>
    intro _ count clock res h
    simp only [runLoopStopEmit] at h
    split at h
    · exact Option.noConfusion h
    · obtain rfl := Option.some.inj h
      exact stopCompletionEmit_split stopAt e0 e1 e2 he2 count clock
  | cons sc rest ih =>
    intro hz count clock res h
    obtain ⟨hd1, hd2, hd3, hd4, hd5⟩ := hz sc (List.mem_cons_self sc rest)
    have hz' : ∀ x ∈ rest,
        0 ≤ x.d1 ∧ 0 ≤ x.d2 ∧ 0 ≤ x.d3 ∧ 0 ≤ x.d4 ∧ 0 ≤ x.d5 :=
      fun x hx => hz x (List.mem_cons_of_mem sc hx)
    simp only [runLoopStopEmit] at h
    generalize hw : clock + sc.d1 +
      (if 0 < min (1 - Int.fract (clock + sc.d1)) (E - (clock + sc.d1))
        then min (1 - Int.fract (clock + sc.d1)) (E - (clock + sc.d1))
        else 0) + sc.d2 = w at h
    generalize hv : w + sc.d3 = v at h
    generalize hnc : pyInt (E - v) + 1 = nc at h
    generalize ha : v + sc.d4 = a at h
    generalize hc : a + sc.d5 = c at h
    split at h
    case isFalse =>
      obtain rfl := Option.some.inj h
      exact stopCompletionEmit_split stopAt e0 e1 e2 he2 count clock
    case isTrue =>
      split at h
      case isTrue =>
        obtain rfl := Option.some.inj h
        exact stopCompletionEmit_split stopAt e0 e1 e2 he2 0
          (clock + sc.d1)
      case isFalse =>
        split at h
        case isTrue =>
          obtain rfl := Option.some.inj h
          exact ⟨[], [], rfl, by simp, by simp, Or.inl rfl⟩
        case isFalse =>
          split at h
          case isTrue =>
            rw [Option.map_eq_some'] at h
            obtain ⟨x, hx, rfl⟩ := h
            have hac : a ≤ c := by
              rw [← hc]
              linarith
            rcases lt_or_ge c stopAt with hcs | hcs
            · obtain ⟨early, late, hsplit, hearly, hlate, hshape⟩ :=
                ih hz' nc c x hx
              refine ⟨((if 0 < nc then [⟨a, Event.announce nc⟩] else [])
                  ++ [⟨c, Event.observer nc⟩]) ++ early, late, ?_, ?_,
                hlate, hshape⟩
              · show ((if 0 < nc then [⟨a, Event.announce nc⟩] else [])
                    ++ [⟨c, Event.observer nc⟩]) ++ x.events = _
                rw [hsplit]
                simp only [List.append_assoc]
              · intro te hte
                rcases List.mem_append.mp hte with hte | hte
                · rcases List.mem_append.mp hte with hte | hte
                  · split at hte
                    · rcases List.mem_cons.mp hte with rfl | hte
                      · show a < stopAt
                        linarith
                      · exact absurd hte (List.not_mem_nil te)
                    · exact absurd hte (List.not_mem_nil te)
                  · rcases List.mem_cons.mp hte with rfl | hte
                    · exact hcs
                    · exact absurd hte (List.not_mem_nil te)
                · exact hearly te hte
            · have hxev : x.events = [] :=
                runLoopStopEmit_no_events_late stopAt E e0 e1 e2 he0
                  rest nc c x hcs hx
              rcases lt_or_ge a stopAt with has | has
              · refine ⟨(if 0 < nc then [⟨a, Event.announce nc⟩]
                    else []),
                  [⟨c, Event.observer nc⟩], ?_, ?_, ?_,
                  Or.inr (Or.inl ⟨c, nc, rfl⟩)⟩
                · show ((if 0 < nc then [⟨a, Event.announce nc⟩]
                      else []) ++ [⟨c, Event.observer nc⟩]) ++ x.events
                      = _
                  rw [hxev, List.append_nil]
                · intro te hte
                  split at hte
                  · rcases List.mem_cons.mp hte with rfl | hte
                    · exact has
                    · exact absurd hte (List.not_mem_nil te)
                  · exact absurd hte (List.not_mem_nil te)
                · intro te hte
                  rcases List.mem_cons.mp hte with rfl | hte
                  · exact hcs
                  · exact absurd hte (List.not_mem_nil te)
              · refine ⟨[], (if 0 < nc then [⟨a, Event.announce nc⟩]
                    else []) ++ [⟨c, Event.observer nc⟩], ?_, by simp,
                  ?_, ?_⟩
                · show ((if 0 < nc then [⟨a, Event.announce nc⟩]
                      else []) ++ [⟨c, Event.observer nc⟩]) ++ x.events
                      = _
                  rw [hxev, List.append_nil, List.nil_append]
                · intro te hte
                  rcases List.mem_append.mp hte with hte | hte
                  · split at hte
                    · rcases List.mem_cons.mp hte with rfl | hte
                      · exact has
                      · exact absurd hte (List.not_mem_nil te)
                    · exact absurd hte (List.not_mem_nil te)
                  · rcases List.mem_cons.mp hte with rfl | hte
                    · exact hcs
                    · exact absurd hte (List.not_mem_nil te)
                · split
                  · exact Or.inr (Or.inr (Or.inl ⟨a, c, nc, hac, rfl⟩))
                  · exact Or.inr (Or.inl ⟨c, nc, rfl⟩)
          case isFalse =>
            rw [Option.map_eq_some'] at h
            obtain ⟨x, hx, rfl⟩ := h
            exact ih hz' count v x hx

theorem late_events_are_inflight_suffix_witness :
    ∃ early late,
      ([⟨111/100, Event.announce 2⟩, ⟨121/100, Event.observer 2⟩] :
        List TimedEvent) = early ++ late ∧
      (∀ te ∈ early, te.time < 21/20) ∧
      (∀ te ∈ late, (21/20 : ℚ) ≤ te.time) ∧ inflightTail late := by
  have hpy : pyInt (199/100 : ℚ) = 1 := by
    rw [pyInt, if_pos (by norm_num), Int.floor_eq_iff]
    norm_num
  have hloop : runLoopStopEmit (21/20) 3 0 0 0
      [⟨0, 0, 1/100, 1/10, 1/10⟩, ⟨0, 0, 0, 0, 0⟩] 3 0 =
      some ⟨2, 121/100,
        [⟨111/100, Event.announce 2⟩, ⟨121/100, Event.observer 2⟩],
        [0, 1, 121/100]⟩ := by
    norm_num [runLoopStopEmit, stopCompletionEmit, Int.fract_zero, hpy]
  exact late_events_are_inflight_suffix (21/20) 3 0 0 0 le_rfl le_rfl
    [⟨0, 0, 1/100, 1/10, 1/10⟩, ⟨0, 0, 0, 0, 0⟩]
    (by
      intro x hx
      fin_cases hx <;>
        exact ⟨by norm_num, by norm_num, by norm_num, by norm_num,
          by norm_num⟩)
    3 0 _ hloop

lemma runLoop_descends (φ δ : ℚ) (hδ0 : 0 ≤ δ) (h2δ : 2 * δ < φ)
    (hφ1 : φ + δ < 1) :
    ∀ (k : ℕ), 1 ≤ k → ∀ (m : ℤ) (b E : ℚ) (sched : List IterSched),
      E = (m : ℚ) + (k : ℚ) - 1 + φ → 0 ≤ b → b ≤ δ →
      (∀ sc ∈ sched,
        0 ≤ sc.d1 ∧ sc.d1 ≤ δ ∧ 0 ≤ sc.d2 ∧ sc.d2 ≤ δ) →
      k + 1 ≤ sched.length →
      ∃ (clockF : ℚ) (sl : List ℚ),
        runLoop noRaise sched ⟨true, (k : ℤ), E, (m : ℚ) + b⟩ =
          some ⟨⟨false, 0, E, clockF⟩, loopEvents (k - 1),
            descList (k - 1), sl, false⟩ := by
  intro k
  induction k with
  | zero =>
    intro h
    exact absurd h (by omega)
  | succ n ih =>
    rcases Nat.eq_zero_or_pos n with rfl | hn
    · -- k = 1 : the partial sleep up to endTime, then the forced zero
      intro _ m b E sched hE hb0 hbδ hnorm hlen
      have hφ0 : (0:ℚ) < φ := by linarith
      have hφlt1 : φ < 1 := by linarith
      have hδlt1 : δ < 1 := by linarith
      rcases sched with _ | ⟨sc1, tail⟩
      · simp at hlen
      rcases tail with _ | ⟨sc2, rest⟩
      · simp at hlen
      obtain ⟨h11, h12, h13, h14⟩ := hnorm sc1 (List.mem_cons_self sc1 _)
      obtain ⟨h21, h22, h23, h24⟩ :=
        hnorm sc2 (List.mem_cons_of_mem sc1 (List.mem_cons_self sc2 _))
      have hE' : E = (m : ℚ) + φ := by
        rw [hE]
        push_cast
        ring
      have hfr : Int.fract ((m : ℚ) + b + sc1.d1) = b + sc1.d1 := by
        rw [add_assoc]
        exact fract_int_add_small m _ (by linarith) (by linarith)
      have hru : (0:ℚ) < E - ((m : ℚ) + b + sc1.d1) := by
        rw [hE']
        linarith
      show ∃ (clockF : ℚ) (sl : List ℚ),
        runLoop noRaise (sc1 :: sc2 :: rest)
            ⟨true, (1 : ℤ), E, (m : ℚ) + b⟩ =
          some ⟨⟨false, 0, E, clockF⟩, loopEvents 0, descList 0, sl, false⟩
      have hstep1 := runLoop_cons_step sc1 (sc2 :: rest)
        (1 : ℤ) E ((m : ℚ) + b)
        ((m : ℚ) + b + sc1.d1)
        (E - ((m : ℚ) + b + sc1.d1))
        (E + sc1.d2)
        1
        (by norm_num) rfl hru
        (by
          rw [hfr]
          exact (min_eq_right (by rw [hE']; linarith)).symm)
        (by ring)
        (by
          rw [show E - (E + sc1.d2) = -sc1.d2 by ring,
            pyInt_neg_small sc1.d2 h13 (by linarith)]
          norm_num)
      rw [if_neg (lt_irrefl (1 : ℤ))] at hstep1
      have hstep2 := runLoop_forced_zero sc2 rest
        (1 : ℤ) E (E + sc1.d2) (by norm_num)
        (by
          show E - (E + sc1.d2 + sc2.d1) ≤ 0
          linarith)
      refine ⟨E + sc1.d2 + sc2.d1, [E - ((m : ℚ) + b + sc1.d1)], ?_⟩
      rw [hstep1, hstep2]
      rfl
    · -- k = n + 1 ≥ 2 : a whole-second sleep decrements the count by one
      obtain ⟨n', rfl⟩ : ∃ n', n = n' + 1 :=
        ⟨n - 1, (Nat.succ_pred_eq_of_pos hn).symm⟩
      intro _ m b E sched hE hb0 hbδ hnorm hlen
      have hφ0 : (0:ℚ) < φ := by linarith
      have hφlt1 : φ < 1 := by linarith
      have hδlt1 : δ < 1 := by linarith
      rcases sched with _ | ⟨sc, rest⟩
      · simp at hlen
      obtain ⟨h11, h12, h13, h14⟩ := hnorm sc (List.mem_cons_self sc rest)
      have hnorm' : ∀ x ∈ rest,
          0 ≤ x.d1 ∧ x.d1 ≤ δ ∧ 0 ≤ x.d2 ∧ x.d2 ≤ δ :=
        fun x hx => hnorm x (List.mem_cons_of_mem sc hx)
      have hE' : E = (m : ℚ) + (n' : ℚ) + 1 + φ := by
        rw [hE]
        push_cast
        ring
      have hfr : Int.fract ((m : ℚ) + b + sc.d1) = b + sc.d1 := by
        rw [add_assoc]
        exact fract_int_add_small m _ (by linarith) (by linarith)
      have hru : (0:ℚ) < E - ((m : ℚ) + b + sc.d1) := by
        rw [hE']
        have : (0:ℚ) ≤ (n' : ℚ) := Nat.cast_nonneg n'
        linarith
      have hnc : ((n' : ℤ) + 1 : ℤ) =
          pyInt (E - ((m : ℚ) + 1 + sc.d2)) + 1 := by
        have harg : E - ((m : ℚ) + 1 + sc.d2) =
            (((n' : ℤ) : ℚ)) + (φ - sc.d2) := by
          rw [hE']
          push_cast
          ring
        rw [harg, pyInt_int_add (n' : ℤ) (φ - sc.d2)
          (Int.ofNat_nonneg n') (by linarith) (by linarith)]
      have hstep := runLoop_cons_step sc rest
        ((n' + 1 + 1 : ℕ) : ℤ) E ((m : ℚ) + b)
        ((m : ℚ) + b + sc.d1)
        (1 - (b + sc.d1))
        ((m : ℚ) + 1 + sc.d2)
        ((n' : ℤ) + 1)
        (by omega) rfl hru
        (by
          rw [hfr]
          refine (min_eq_left ?_).symm
          rw [hE']
          have : (0:ℚ) ≤ (n' : ℚ) := Nat.cast_nonneg n'
          linarith)
        (by ring)
        hnc
      rw [if_pos (by omega : ((n' : ℤ) + 1) < ((n' + 1 + 1 : ℕ) : ℤ))]
        at hstep
      obtain ⟨cF, sl, hIH⟩ := ih hn (m + 1) sc.d2 E rest
        (by rw [hE']; push_cast; ring)
        h13 h14 hnorm' (by simpa using hlen)
      push_cast at hIH
      refine ⟨cF, (1 - (b + sc.d1)) :: sl, ?_⟩
      rw [hstep, hIH]
      have hpos : (0:ℤ) < (n' : ℤ) + 1 := by omega
      simp only [Option.map_some', if_pos hpos]
      simp only [loopEvents, descList]
      rfl

lemma countdownRun_descends (φ δ : ℚ) (hδ0 : 0 ≤ δ) (h2δ : 2 * δ < φ)
    (hφ1 : φ + δ < 1) (n : ℕ) (m0 : ℤ) (T : ℚ)
    (hT : T = (m0 : ℚ) + φ) (sched : List IterSched)
    (hnorm : ∀ sc ∈ sched,
      0 ≤ sc.d1 ∧ sc.d1 ≤ δ ∧ 0 ≤ sc.d2 ∧ sc.d2 ≤ δ)
    (hlen : (n + 1) + 2 ≤ sched.length) :
    ∃ res, countdownRun ((n + 1 : ℕ) : ℤ) T sched noRaise = some res ∧
      res.counts = descList (n + 1) ∧
      res.events = Event.announce ((n + 1 : ℕ) : ℤ) :: loopEvents n ∧
      res.final.running = false ∧ res.final.count = 0 ∧
      res.exc = false := by
  subst hT
  rcases sched with _ | ⟨sc0, rest⟩
  · simp at hlen
  obtain ⟨h01, h02, h03, h04⟩ := hnorm sc0 (List.mem_cons_self sc0 rest)
  have hnorm' : ∀ x ∈ rest,
      0 ≤ x.d1 ∧ x.d1 ≤ δ ∧ 0 ≤ x.d2 ∧ x.d2 ≤ δ :=
    fun x hx => hnorm x (List.mem_cons_of_mem sc0 hx)
  have hφ0 : (0:ℚ) < φ := by linarith
  have hφlt1 : φ < 1 := by linarith
  have hδlt1 : δ < 1 := by linarith
  have hcast : (0:ℚ) ≤ (n : ℚ) := Nat.cast_nonneg n
  have hfr : Int.fract ((m0 : ℚ) + φ + sc0.d1) = φ + sc0.d1 := by
    rw [add_assoc]
    exact fract_int_add_small m0 _ (by linarith) (by linarith)
  have hru : (0:ℚ) < (m0 : ℚ) + φ + (((n + 1 : ℕ) : ℤ) : ℚ) -
      ((m0 : ℚ) + φ + sc0.d1) := by
    push_cast
    linarith
  have hnc : ((n + 1 : ℕ) : ℤ) =
      pyInt ((m0 : ℚ) + φ + (((n + 1 : ℕ) : ℤ) : ℚ) -
        (((m0 + 1 : ℤ) : ℚ) + sc0.d2)) + 1 := by
    have harg : (m0 : ℚ) + φ + (((n + 1 : ℕ) : ℤ) : ℚ) -
        (((m0 + 1 : ℤ) : ℚ) + sc0.d2) = ((n : ℤ) : ℚ) + (φ - sc0.d2) := by
      push_cast
      ring
    rw [harg, pyInt_int_add (n : ℤ) (φ - sc0.d2) (Int.ofNat_nonneg n)
      (by linarith) (by linarith)]
    push_cast
    ring
  have hstep := runLoop_cons_step sc0 rest
    ((n + 1 : ℕ) : ℤ)
    ((m0 : ℚ) + φ + (((n + 1 : ℕ) : ℤ) : ℚ))
    ((m0 : ℚ) + φ)
    ((m0 : ℚ) + φ + sc0.d1)
    (1 - (φ + sc0.d1))
    (((m0 + 1 : ℤ) : ℚ) + sc0.d2)
    ((n + 1 : ℕ) : ℤ)
    (by omega) rfl hru
    (by
      rw [hfr]
      refine (min_eq_left ?_).symm
      push_cast
      linarith)
    (by push_cast; ring)
    hnc
  rw [if_neg (lt_irrefl _)] at hstep
  obtain ⟨cF, sl, hIH⟩ := runLoop_descends φ δ hδ0 h2δ hφ1 (n + 1)
    (by omega) (m0 + 1) sc0.d2
    ((m0 : ℚ) + φ + (((n + 1 : ℕ) : ℤ) : ℚ)) rest
    (by push_cast; ring) h03 h04 hnorm' (by simpa using hlen)
  refine ⟨⟨⟨false, 0, (m0 : ℚ) + φ + (((n + 1 : ℕ) : ℤ) : ℚ), cF⟩,
    Event.announce ((n + 1 : ℕ) : ℤ) :: loopEvents n,
    ((n + 1 : ℕ) : ℤ) :: descList n,
    (1 - (φ + sc0.d1)) :: sl, false⟩, ?_, ?_, rfl, rfl, rfl, rfl⟩
  · unfold countdownRun
    rw [if_pos (by omega : (0:ℤ) < ((n + 1 : ℕ) : ℤ)), hstep, hIH]
    rfl
  · show ((n + 1 : ℕ) : ℤ) :: descList n = descList (n + 1)
    rw [descList]
    congr 1

/-- C5: for any run started with `N` seconds under normal (non-stalled)
scheduling, the successive values of `CurrentCount()` are exactly
`N, N-1, ..., 1, 0`, strictly decreasing, each taken exactly once — the
per-boundary recomputes decrement by exactly 1 and the final transition is
the forced 0 at the top-of-loop remaining check; the announcements and
observer calls are likewise those of `N-1, ..., 1` followed by the
completion pair.  Normal scheduling is formalised as: every scheduling
delay and sleep overshoot is at most `δ`, where the start instant's
sub-second phase `Int.fract T` exceeds `2δ` and is more than `δ` away
from the next whole second (so boundaries do not fall inside the jitter
window of the whole-second wake-ups), and the schedule offers the `N + 2`
iterations the run needs. -/
theorem counts_descend_per_second (N : ℕ) (hN : 1 ≤ N) (T δ : ℚ)
    (hδ0 : 0 ≤ δ) (h2δ : 2 * δ < Int.fract T)
    (hφ1 : Int.fract T + δ < 1) (sched : List IterSched)
    (hnorm : ∀ sc ∈ sched,
      0 ≤ sc.d1 ∧ sc.d1 ≤ δ ∧ 0 ≤ sc.d2 ∧ sc.d2 ≤ δ)
    (hlen : N + 2 ≤ sched.length) :
    ∃ res, countdownRun (N : ℤ) T sched noRaise = some res ∧
      res.counts = descList N ∧
      res.events = Event.announce (N : ℤ) :: loopEvents (N - 1) ∧
      res.final.running = false ∧ res.final.count = 0 ∧
      res.exc = false := by
  obtain ⟨n, rfl⟩ : ∃ n, N = n + 1 :=
    ⟨N - 1, (Nat.succ_pred_eq_of_pos hN).symm⟩
  exact countdownRun_descends (Int.fract T) δ hδ0 h2δ hφ1 n ⌊T⌋ T
    (Int.floor_add_fract T).symm sched hnorm hlen

theorem counts_descend_per_second_witness :
    ∃ res, countdownRun 2 (1/2) [⟨0, 0⟩, ⟨0, 0⟩, ⟨0, 0⟩, ⟨0, 0⟩]
        noRaise = some res ∧
      res.counts = descList 2 ∧ res.final.running = false := by
  have hfr : Int.fract (1/2 : ℚ) = 1/2 :=
    Int.fract_eq_self.mpr ⟨by norm_num, by norm_num⟩
  obtain ⟨res, h1, h2, _, h4, _⟩ := counts_descend_per_second 2
    (by norm_num) (1/2) (1/8) (by norm_num)
    (by rw [hfr]; norm_num) (by rw [hfr]; norm_num)
    [⟨0, 0⟩, ⟨0, 0⟩, ⟨0, 0⟩, ⟨0, 0⟩]
    (by
      intro x hx
      fin_cases hx <;>
        exact ⟨le_rfl, by norm_num, le_rfl, by norm_num⟩)
    (by norm_num)
  exact ⟨res, h1, h2, h4⟩

end TTSCountdown
